import Mathlib

/-!
# Verification of the SEOStudio core utilities

A shallow embedding, in Lean 4, of the behaviourally relevant parts of
`src/myseotools.jsx`:

* `generateContent` — the resilient invoker: a bounded retry loop over
  attempts against the text-generation endpoint, with a fixed backoff
  schedule `[1000, 2000, 4000, 8000, 16000]` (milliseconds).  An attempt's
  outcome is abstracted as an `Outcome` (transport success with a parsed
  response body, an HTTP error status with an optional endpoint message, or
  a transport-level exception); the network itself is modelled as a function
  from the attempt index to the outcome of that attempt.  The embedding
  returns the produced result together with the number of attempts performed
  and the list of sleep durations, in order, so that scheduling claims can
  be stated.
* `WordCounter.stats` — word / character / paragraph counts and reading
  time.  JavaScript's `trim`, `split(/\s+/)` and `split(/\n\s*\n/)` are
  modelled character-by-character on `List Char`.
* `UrlTrimmer.cleanUrls` — the bulk URL cleaner.  The WHATWG `URL` class
  used by the source is a platform builtin, so it is modelled here by a
  partial parser/serializer that agrees with the builtin on a restricted
  but executable domain (lower-case scheme and host, no percent-escapes,
  no whitespace, no dot path segments, query characters that the
  `application/x-www-form-urlencoded` serializer passes through verbatim).
  All theorems about URLs quantify over strings this parser accepts.

All definitions are executable (structural recursion only), so every
concrete test case is settled by kernel evaluation.
-/

namespace SeoStudio

/-! ## The resilient invoker (`generateContent`)

Source, `src/myseotools.jsx` lines 26-63.  The response body's relevant
shape is `{ candidates: [{ content: { parts: [{ text: ... }] } }] }`; each
level is optional, mirroring the optional chaining
`data.candidates?.[0]?.content?.parts?.[0]?.text`. -/

/-- One `{ text: ... }` part of a response candidate; `text` is absent or a
string. -/
structure RespPart where
  text : Option (List Char)
deriving DecidableEq

/-- The `content` object of a candidate: an optional list of parts. -/
structure RespContent where
  parts : Option (List RespPart)
deriving DecidableEq

/-- One response candidate: an optional `content` object. -/
structure RespCandidate where
  content : Option RespContent
deriving DecidableEq

/-- A parsed success response body: an optional list of candidates. -/
structure RespBody where
  candidates : Option (List RespCandidate)
deriving DecidableEq

/-- The optional-chain `data.candidates?.[0]?.content?.parts?.[0]?.text`:
`none` when any step of the path is absent (missing field or empty array),
otherwise the first candidate's first part's `text` field. -/
def pathText (b : RespBody) : Option (List Char) :=
  match b.candidates with
  | some (c :: _) =>
    match c.content with
    | some ct =>
      match ct.parts with
      | some (p :: _) => p.text
      | _ => none
    | none => none
  | _ => none

/-- The fixed fallback string returned when no usable fragment is present. -/
def fallbackMsg : List Char := ("No response generated.").toList

/-- `data.candidates?.[0]?.content?.parts?.[0]?.text || "No response generated."`:
JavaScript `||` tests truthiness, so both an absent path (`undefined`) and an
empty string select the fallback. -/
def extractText (b : RespBody) : List Char :=
  match pathText b with
  | some t => if t.isEmpty then fallbackMsg else t
  | none => fallbackMsg

/-- The outcome of one `fetch` attempt, as classified by the source:
a transport success whose JSON body parsed to `body`; a non-ok HTTP
`status` whose JSON error body carried the optional message
`errMessage` (`errorData.error?.message`); or a transport-level
exception carrying `msg`. -/
inductive Outcome where
  | success (body : RespBody)
  | httpError (status : Nat) (errMessage : Option (List Char))
  | netError (msg : List Char)
deriving DecidableEq

/-- Literal text of the template `API Error: ${status}` up to the status. -/
def apiErrorLabel : List Char := ("API Error: ").toList

/-- The generic terminal message `"API Request Failed"`. -/
def requestFailedMsg : List Char := ("API Request Failed").toList

/-- The body of the `try` block for one attempt: either the value `return`ed
(`Sum.inl`) or the message of the error thrown (`Sum.inr`).
A 429 or 5xx status throws `API Error: ${status}`; any other non-ok status
throws `errorData.error?.message || "API Request Failed"` (truthiness: an
empty message also selects the generic one); a transport exception
propagates as itself; a success returns the extracted text. -/
def attemptResult (o : Outcome) : List Char ⊕ List Char :=
  match o with
  | .success b => .inl (extractText b)
  | .httpError s m =>
    if s = 429 ∨ 500 ≤ s then .inr (apiErrorLabel ++ (Nat.repr s).toList)
    else
      .inr (match m with
        | some msg => if msg.isEmpty then requestFailedMsg else msg
        | none => requestFailedMsg)
  | .netError msg => .inr msg

/-- The error message an attempt would throw (`[]` for a success; only ever
read on failing attempts). -/
def errMsgOf (o : Outcome) : List Char :=
  match attemptResult o with
  | .inl _ => []
  | .inr e => e

/-- An outcome the specification classifies as retryable: HTTP 429, any
HTTP 5xx, or a transport-level exception. -/
def retryableB (o : Outcome) : Bool :=
  match o with
  | .success _ => false
  | .httpError s _ => s == 429 || decide (500 ≤ s)
  | .netError _ => true

/-- The invoker's result: either the returned text or the thrown error. -/
inductive GenResult where
  | ok (text : List Char)
  | err (msg : List Char)
deriving DecidableEq

/-- The observable trace of one invocation: its result, the number of
attempts performed, and the sleep durations performed, in order. -/
structure RunTrace where
  result : GenResult
  attempts : Nat
  sleeps : List Nat
deriving DecidableEq

/-- `const delays = [1000, 2000, 4000, 8000, 16000];` -/
def delays : List Nat := [1000, 2000, 4000, 8000, 16000]

/-- The retry loop `for (let i = 0; i <= delays.length; i++) { ... }`.
`rest` is `delays.drop i`, so the rethrow condition `i === delays.length`
of the source's catch block is exactly `rest = []`, and the sleep duration
`delays[i]` is exactly the head of `rest`.  Every thrown error — retryable
or terminal alike — reaches the same catch block and is retried unless the
budget is exhausted, faithfully to the source. -/
def retryLoop (outs : Nat → Outcome) : Nat → List Nat → RunTrace
  | i, rest =>
    match attemptResult (outs i) with
    | .inl t => ⟨.ok t, 1, []⟩
    | .inr e =>
      match rest with
      | [] => ⟨.err e, 1, []⟩
      | d :: rest' =>
        let r := retryLoop outs (i + 1) rest'
        ⟨r.result, r.attempts + 1, d :: r.sleeps⟩

/-- `generateContent`, abstracted over the attempt outcomes. -/
def generateContent (outs : Nat → Outcome) : RunTrace :=
  retryLoop outs 0 delays

theorem retryLoop_ok (outs : Nat → Outcome) (i : Nat) (rest : List Nat)
    (t : List Char) (h : attemptResult (outs i) = .inl t) :
    retryLoop outs i rest = ⟨.ok t, 1, []⟩ := by
  unfold retryLoop
  rw [h]

theorem retryLoop_err_nil (outs : Nat → Outcome) (i : Nat)
    (e : List Char) (h : attemptResult (outs i) = .inr e) :
    retryLoop outs i [] = ⟨.err e, 1, []⟩ := by
  unfold retryLoop
  rw [h]

theorem retryLoop_err_cons (outs : Nat → Outcome) (i : Nat)
    (d : Nat) (rest : List Nat)
    (e : List Char) (h : attemptResult (outs i) = .inr e) :
    retryLoop outs i (d :: rest) =
      ⟨(retryLoop outs (i + 1) rest).result,
       (retryLoop outs (i + 1) rest).attempts + 1,
       d :: (retryLoop outs (i + 1) rest).sleeps⟩ := by
  conv_lhs => unfold retryLoop
  rw [h]

theorem retryable_attemptResult (o : Outcome) (h : retryableB o = true) :
    attemptResult o = .inr (errMsgOf o) := by
  cases o with
  | success b => simp [retryableB] at h
  | httpError s m =>
    have hs : s = 429 ∨ 500 ≤ s := by
      simp [retryableB] at h
      omega
    simp [attemptResult, errMsgOf, hs]
  | netError msg => simp [attemptResult, errMsgOf]

/-- If the attempts at indices `i, i+1, ..., i + rest.length` all fail,
the loop performs all of them, sleeps through all of `rest`, and rethrows
the last error. -/
theorem retryLoop_all_fail (outs : Nat → Outcome) :
    ∀ (rest : List Nat) (i : Nat),
    (∀ j, j ≤ rest.length → retryableB (outs (i + j)) = true) →
    retryLoop outs i rest =
      ⟨.err (errMsgOf (outs (i + rest.length))), rest.length + 1, rest⟩ := by
  intro rest
  induction rest with
  | nil =>
    intro i h
    have h0 := retryable_attemptResult _ (h 0 (by simp))
    simpa using retryLoop_err_nil outs i _ h0
  | cons d rest' ih =>
    intro i h
    have h0 := retryable_attemptResult _ (h 0 (by simp))
    rw [retryLoop_err_cons outs i d rest' _ (by simpa using h0)]
    have hrec := ih (i + 1) (by
      intro j hj
      have := h (j + 1) (by simpa using Nat.succ_le_succ hj)
      simpa [Nat.add_assoc, Nat.add_comm 1 j] using this)
    rw [hrec]
    simp [Nat.add_assoc, Nat.add_comm 1 rest'.length]

/-- If the first `k` attempts (from index `i`) fail and attempt `i + k`
is a transport success, the loop performs `k + 1` attempts, sleeps through
the first `k` entries of `rest`, and returns the extracted text. -/
theorem retryLoop_fail_then_success (outs : Nat → Outcome) :
    ∀ (k : Nat) (rest : List Nat) (i : Nat) (body : RespBody),
    k ≤ rest.length →
    (∀ j, j < k → retryableB (outs (i + j)) = true) →
    outs (i + k) = .success body →
    retryLoop outs i rest = ⟨.ok (extractText body), k + 1, rest.take k⟩ := by
  intro k
  induction k with
  | zero =>
    intro rest i body _ _ hsucc
    have : attemptResult (outs i) = .inl (extractText body) := by
      have : outs i = .success body := by simpa using hsucc
      rw [this, attemptResult]
    simpa using retryLoop_ok outs i rest _ this
  | succ k' ih =>
    intro rest i body hk hfail hsucc
    cases rest with
    | nil => simp at hk
    | cons d rest' =>
      have h0 := retryable_attemptResult _ (hfail 0 (by omega))
      rw [retryLoop_err_cons outs i d rest' _ (by simpa using h0)]
      have hrec := ih rest' (i + 1) body (by simpa using hk)
        (by
          intro j hj
          have := hfail (j + 1) (by omega)
          simpa [Nat.add_assoc, Nat.add_comm 1 j] using this)
        (by simpa [Nat.add_assoc, Nat.add_comm 1 k'] using hsucc)
      rw [hrec]
      simp

/-! ### Claim theorems for the invoker -/

/-- C1 — the code, not the claim, is at fault here.  The source's comment
says a 400 should "fail immediately", and the specification says a
terminal-classified failure aborts with exactly 1 attempt and no sleep; but
the thrown terminal error lands in the same `catch` block as retryable
ones, so the invoker retries it.  Evaluating the code on a run whose every
attempt yields HTTP 400: 6 attempts are performed and all 5 backoff sleeps
happen before the failure surfaces. -/
theorem terminal400_is_retried :
    generateContent (fun _ => .httpError 400 (some ("Invalid request").toList)) =
      ⟨.err (("Invalid request").toList), 6, [1000, 2000, 4000, 8000, 16000]⟩ := by
  decide

/-- C2 — for every `k ≤ 5`, if the first `k` attempts are retryable
failures (HTTP 429, HTTP 5xx, or a transport exception) and attempt `k`
(0-based; the `k+1`-st attempt) is a transport success, the invoker
performs exactly `k + 1` attempts, sleeps exactly `k` times for
`delays[0..k-1]` in order, and returns the extracted success value. -/
theorem retry_then_success (outs : Nat → Outcome) (k : Nat) (body : RespBody)
    (hk : k ≤ 5)
    (hfail : ∀ j, j < k → retryableB (outs j) = true)
    (hsucc : outs k = .success body) :
    generateContent outs = ⟨.ok (extractText body), k + 1, delays.take k⟩ ∧
      delays = [1000, 2000, 4000, 8000, 16000] := by
  constructor
  · have := retryLoop_fail_then_success outs k delays 0 body
      (by simpa [delays] using hk)
      (by intro j hj; simpa using hfail j hj)
      (by simpa using hsucc)
    simpa [generateContent] using this
  · rfl

/-- The response body used in the C2 witness: a single candidate whose
first part's text is `"hi"`. -/
def bodyHi : RespBody :=
  ⟨some [⟨some ⟨some [⟨some (("hi").toList)⟩]⟩⟩]⟩

/-- The outcome sequence used in the C2 witness: a transport exception,
then an HTTP 503, then a success. -/
def outsW2 : Nat → Outcome :=
  fun j =>
    if j = 0 then .netError (("timeout").toList)
    else if j = 1 then .httpError 503 none
    else .success bodyHi

/-- Witness for C2 at `k = 2`: two retryable failures then a success give
3 attempts and the sleeps `[1000, 2000]`. -/
theorem retry_then_success_witness :
    generateContent outsW2 = ⟨.ok (("hi").toList), 3, [1000, 2000]⟩ ∧
      delays = [1000, 2000, 4000, 8000, 16000] := by
  have h := retry_then_success outsW2 2 bodyHi (by decide)
    (by decide) (by decide)
  exact ⟨h.1.trans (by decide), h.2⟩

/-- C3 — if all 6 attempts yield retryable outcomes, the invoker performs
exactly 6 attempts, sleeps 5 times through `delays[0..4]`, and surfaces a
terminal failure carrying the last attempt's error message; no 7th attempt
is possible since the trace records every attempt performed. -/
theorem all_retryable_exhausts (outs : Nat → Outcome)
    (hfail : ∀ j, j ≤ 5 → retryableB (outs j) = true) :
    generateContent outs = ⟨.err (errMsgOf (outs 5)), 6, delays⟩ ∧
      delays = [1000, 2000, 4000, 8000, 16000] := by
  constructor
  · have := retryLoop_all_fail outs delays 0 (by
      intro j hj
      simpa using hfail j (by simpa [delays] using hj))
    simpa [generateContent, delays] using this
  · rfl

/-- The outcome sequence used in the C3 witness: every attempt is an
HTTP 500. -/
def outsW3 : Nat → Outcome := fun _ => .httpError 500 none

/-- Witness for C3: six consecutive HTTP 500s give 6 attempts, the full
sleep schedule, and the final error message `API Error: 500`. -/
theorem all_retryable_exhausts_witness :
    generateContent outsW3 =
      ⟨.err (("API Error: 500").toList), 6, [1000, 2000, 4000, 8000, 16000]⟩ ∧
      delays = [1000, 2000, 4000, 8000, 16000] := by
  have h := all_retryable_exhausts outsW3 (by decide)
  exact ⟨h.1.trans (by decide), h.2⟩

/-- The response body refuting C4 as stated: the extraction path is fully
present and its `text` field is the empty string. -/
def bodyEmptyText : RespBody :=
  ⟨some [⟨some ⟨some [⟨some []⟩]⟩⟩]⟩

/-- C4, counterexample — the claim says that on a transport success the
invoker "returns the first candidate's first part's text", with the
fallback reserved for an absent path.  On a body whose path is present
with text `""`, the code returns the fallback `"No response generated."`,
which differs from the text, so the claim as stated is false. -/
theorem success_empty_text_not_returned :
    generateContent (fun _ => .success bodyEmptyText) =
      ⟨.ok fallbackMsg, 1, []⟩ ∧
    pathText bodyEmptyText = some [] ∧
    fallbackMsg ≠ [] := by
  exact ⟨by decide, by decide, by decide⟩

/-- C4, amended — on a transport success the invoker performs exactly one
attempt, sleeps never, and returns a success: the first candidate's first
part's text whenever that text is present and non-empty, and the fixed
fallback string `"No response generated."` (as a success, not a failure)
whenever the path is absent (missing candidates, content, parts, or text)
or the text is the empty string. -/
theorem success_extraction (outs : Nat → Outcome) (body : RespBody)
    (h0 : outs 0 = .success body) :
    generateContent outs = ⟨.ok (extractText body), 1, []⟩ ∧
    (∀ t, pathText body = some t → t ≠ [] → extractText body = t) ∧
    (pathText body = none → extractText body = fallbackMsg) ∧
    (pathText body = some [] → extractText body = fallbackMsg) := by
  refine ⟨?_, ?_, ?_, ?_⟩
  · have : attemptResult (outs 0) = .inl (extractText body) := by
      rw [h0, attemptResult]
    simpa [generateContent] using retryLoop_ok outs 0 delays _ this
  · intro t ht hne
    simp [extractText, ht, List.isEmpty_iff, hne]
  · intro ht
    simp [extractText, ht]
  · intro ht
    simp [extractText, ht, List.isEmpty_iff]

/-- Witness for the amended C4: a first-attempt success whose body carries
the text `"hi"` returns that text after exactly one attempt. -/
theorem success_extraction_witness :
    generateContent (fun _ => .success bodyHi) = ⟨.ok (("hi").toList), 1, []⟩ ∧
    extractText bodyHi = ("hi").toList := by
  have h := success_extraction (fun _ => .success bodyHi) bodyHi rfl
  refine ⟨h.1.trans (by decide), ?_⟩
  exact h.2.1 (("hi").toList) (by decide) (by decide)

/-- The response body used in the C10 witness: the first part's text is the
empty string (a later part carrying text is ignored by the extraction). -/
def bodyW10 : RespBody :=
  ⟨some [⟨some ⟨some [⟨some []⟩, ⟨some (("x").toList)⟩]⟩⟩]⟩

/-- C10 — when a transport success response contains the extraction path
but its `text` field is the empty string, the invoker returns the fallback
string rather than the empty string: the `||` extraction tests truthiness,
not presence. -/
theorem empty_text_yields_fallback (outs : Nat → Outcome) (body : RespBody)
    (h0 : outs 0 = .success body) (hpath : pathText body = some []) :
    generateContent outs = ⟨.ok fallbackMsg, 1, []⟩ ∧ fallbackMsg ≠ [] := by
  have hext : extractText body = fallbackMsg := by
    simp [extractText, hpath, List.isEmpty_iff]
  have : attemptResult (outs 0) = .inl fallbackMsg := by
    rw [h0, attemptResult, hext]
  refine ⟨?_, by decide⟩
  simpa [generateContent] using retryLoop_ok outs 0 delays _ this

/-- Witness for C10 at a concrete body whose first part's text is empty. -/
theorem empty_text_yields_fallback_witness :
    generateContent (fun _ => .success bodyW10) = ⟨.ok fallbackMsg, 1, []⟩ ∧
      fallbackMsg ≠ [] :=
  empty_text_yields_fallback (fun _ => .success bodyW10) bodyW10 rfl (by decide)

/-! ## The word/character counter (`WordCounter.stats`)

Source, `src/myseotools.jsx` lines 227-233.  JavaScript's `String.trim`,
`split(/\s+/)` and `split(/\n\s*\n/)` are modelled character-by-character
on `List Char`. -/

/-- The whitespace class used by JavaScript `\s` and `trim`, restricted to
the characters representable here: ASCII whitespace plus no-break space. -/
def isWs (c : Char) : Bool :=
  c = ' ' || c = '\t' || c = '\n' || c = '\r' || c = '\x0B' || c = '\x0C' ||
    c = '\u00A0'

/-- JavaScript `String.prototype.trim`: drop whitespace from both ends. -/
def jsTrim (l : List Char) : List Char :=
  ((l.dropWhile isWs).reverse.dropWhile isWs).reverse

/-- JavaScript `split(/\s+/)`, as a scan with a flag recording whether the
previous character was part of a whitespace run: every maximal whitespace
run is one separator, a leading run contributes a leading empty segment and
a trailing run a trailing empty segment, and the empty string yields the
single segment `[]` (as `"".split(/\s+/)` yields `[""]`). -/
def splitWsF : Bool → List Char → List (List Char)
  | _, [] => [[]]
  | inWs, c :: rest =>
    if isWs c then
      if inWs then splitWsF true rest
      else [] :: splitWsF true rest
    else
      match splitWsF false rest with
      | [] => [[c]]
      | s :: ss => (c :: s) :: ss

/-- JavaScript `split(/\s+/)`. -/
def jsSplitWs (l : List Char) : List (List Char) := splitWsF false l

/-- The number of maximal runs of characters satisfying `p`, scanning with
a flag recording whether the previous character satisfied `p`. -/
def countRunsAux (p : Char → Bool) : List Char → Bool → Nat
  | [], _ => 0
  | c :: rest, inRun =>
    if p c then (if inRun then 0 else 1) + countRunsAux p rest true
    else countRunsAux p rest false

/-- The number of whitespace-separated tokens of a text: its number of
maximal runs of non-whitespace characters.  This is the specification-side
reading of "word count", independent of the splitting function. -/
def countTokens (l : List Char) : Nat :=
  countRunsAux (fun c => !isWs c) l false

/-- The number of maximal whitespace runs of a text. -/
def countWsRuns (l : List Char) : Nat := countRunsAux isWs l false

/-- The index of the last `'\n'` of a list, if any. -/
def lastNl : List Char → Option Nat
  | [] => none
  | c :: rest =>
    match lastNl rest with
    | some j => some (j + 1)
    | none => if c = '\n' then some 0 else none

/-- Matching the regex `\n\s*\n` (greedy) at the start of `l`: the initial
character must be `'\n'`, and the final `'\n'` of the match is the last
`'\n'` inside the maximal whitespace run that follows (backtracking from
the greedy `\s*`).  Returns the remainder after the match. -/
def matchParaSep : List Char → Option (List Char)
  | '\n' :: rest =>
    match lastNl (rest.takeWhile isWs) with
    | some j => some (rest.drop (j + 1))
    | none => none
  | _ => none

/-- JavaScript `split(/\n\s*\n/)`: scan left to right for the leftmost
separator match, cut, and continue.  `fuel` keeps the recursion structural;
each step consumes at least one character, so any `fuel ≥ l.length` is
never exhausted. -/
def paraSplit : Nat → List Char → List Char → List (List Char)
  | _, [], acc => [acc.reverse]
  | 0, _ :: _, acc => [acc.reverse]
  | fuel + 1, c :: rest, acc =>
    match matchParaSep (c :: rest) with
    | some rem => acc.reverse :: paraSplit fuel rem []
    | none => paraSplit fuel rest (c :: acc)

/-- The five statistics computed by the word counter panel.  `readTimeMin`
is the numeric part of the displayed `"${n} min"` string. -/
structure Stats where
  words : Nat
  chars : Nat
  charsNoSpace : Nat
  paragraphs : Nat
  readTimeMin : Nat
deriving DecidableEq

/-- `WordCounter`'s `stats` object (source lines 227-233):
`words = text.trim() === '' ? 0 : text.trim().split(/\s+/).length`,
`chars = text.length`,
`charsNoSpace = text.replace(/\s/g, '').length`,
`paragraphs = text.trim() === '' ? 0 : text.trim().split(/\n\s*\n/).length`,
`readTime = Math.ceil(text.trim().split(/\s+/).length / 200) + " min"`
(note: `readTime` has no empty-text guard). -/
def stats (s : List Char) : Stats :=
  let t := jsTrim s
  { words := if t.isEmpty then 0 else (jsSplitWs t).length
    chars := s.length
    charsNoSpace := (s.filter (fun c => !isWs c)).length
    paragraphs := if t.isEmpty then 0 else (paraSplit (t.length + 1) t []).length
    readTimeMin := ((jsSplitWs t).length + 199) / 200 }

/-! ### Supporting lemmas: the split/run-count correspondence -/

/-- Does the text start with a non-whitespace character? -/
def startsNonWs (l : List Char) : Bool :=
  match l.head? with
  | some c => !isWs c
  | none => false

/-- Does the text end with a non-whitespace character? -/
def endsNonWs (l : List Char) : Bool :=
  match l.getLast? with
  | some c => !isWs c
  | none => false

/-- One-level unfolding of `countRunsAux`. -/
theorem countRunsAux_cons (p : Char → Bool) (c : Char) (rest : List Char) (b : Bool) :
    countRunsAux p (c :: rest) b =
      if p c then (if b then 0 else 1) + countRunsAux p rest true
      else countRunsAux p rest false := rfl

/-- One-level unfolding of `splitWsF`. -/
theorem splitWsF_cons (b : Bool) (c : Char) (rest : List Char) :
    splitWsF b (c :: rest) =
      if isWs c then
        if b then splitWsF true rest else [] :: splitWsF true rest
      else
        match splitWsF false rest with
        | [] => [[c]]
        | s :: ss => (c :: s) :: ss := rfl

theorem length_splitWsF :
    ∀ (l : List Char) (b : Bool),
    (splitWsF b l).length = 1 + countRunsAux isWs l b := by
  intro l
  induction l with
  | nil => intro b; simp [splitWsF, countRunsAux]
  | cons c rest ih =>
    intro b
    rw [splitWsF_cons, countRunsAux_cons]
    by_cases hc : isWs c = true
    · have h1 := ih true
      cases b with
      | true => simp [hc]; omega
      | false => simp [hc]; omega
    · have hc' : isWs c = false := by simpa using hc
      have hrest := ih false
      cases hsp : splitWsF false rest with
      | nil =>
        rw [hsp] at hrest
        simp only [List.length_nil] at hrest
        omega
      | cons s ss =>
        rw [hsp] at hrest
        simp only [List.length_cons] at hrest
        simp [hc']
        omega

/-- Core alternation invariant: scanning a text that ends in a
non-whitespace character, the number of (remaining) token runs and the
number of (remaining) whitespace runs are offset by the scanner state. -/
theorem countRuns_alternate :
    ∀ l : List Char, endsNonWs l = true →
    countRunsAux (fun c => !isWs c) l true = countRunsAux isWs l false ∧
    countRunsAux (fun c => !isWs c) l false = countRunsAux isWs l true + 1 := by
  intro l
  induction l with
  | nil => intro h; simp [endsNonWs] at h
  | cons c rest ih =>
    intro h
    cases rest with
    | nil =>
      have hc : isWs c = false := by
        simpa [endsNonWs] using h
      simp [countRunsAux, hc]
    | cons d rs =>
      have hrest : endsNonWs (d :: rs) = true := by
        simpa [endsNonWs, List.getLast?_cons_cons] using h
      have ihr := ih hrest
      have h1 := ihr.1
      have h2 := ihr.2
      by_cases hc : isWs c = true
      · constructor
        · rw [countRunsAux_cons (fun c => !isWs c) c (d :: rs) true,
            countRunsAux_cons isWs c (d :: rs) false]
          simp [hc]
          omega
        · rw [countRunsAux_cons (fun c => !isWs c) c (d :: rs) false,
            countRunsAux_cons isWs c (d :: rs) true]
          simp [hc]
          omega
      · have hc' : isWs c = false := by simpa using hc
        constructor
        · rw [countRunsAux_cons (fun c => !isWs c) c (d :: rs) true,
            countRunsAux_cons isWs c (d :: rs) false]
          simp [hc']
          omega
        · rw [countRunsAux_cons (fun c => !isWs c) c (d :: rs) false,
            countRunsAux_cons isWs c (d :: rs) true]
          simp [hc']
          omega

/-- On a text that starts and ends with non-whitespace characters, the
token count exceeds the whitespace-run count by exactly one. -/
theorem countTokens_eq_countWsRuns_succ (l : List Char)
    (h1 : startsNonWs l = true) (h2 : endsNonWs l = true) :
    countTokens l = countWsRuns l + 1 := by
  cases l with
  | nil => simp [startsNonWs] at h1
  | cons c rest =>
    have hc : isWs c = false := by simpa [startsNonWs] using h1
    cases rest with
    | nil => simp [countTokens, countWsRuns, countRunsAux, hc]
    | cons d rs =>
      have hrest : endsNonWs (d :: rs) = true := by
        simpa [endsNonWs, List.getLast?_cons_cons] using h2
      have halt := (countRuns_alternate (d :: rs) hrest).1
      unfold countTokens countWsRuns
      rw [countRunsAux_cons (fun c => !isWs c) c (d :: rs) false,
        countRunsAux_cons isWs c (d :: rs) false]
      simp [hc]
      omega

theorem head?_dropWhile_false (p : Char → Bool) :
    ∀ (l : List Char) (c : Char), (l.dropWhile p).head? = some c → p c = false := by
  intro l
  induction l with
  | nil => intro c h; simp [List.dropWhile] at h
  | cons a rest ih =>
    intro c h
    by_cases ha : p a = true
    · exact ih c (by simpa [List.dropWhile, ha] using h)
    · rw [List.dropWhile_cons, if_neg (by simp [ha])] at h
      simp at h
      subst h
      simpa using ha

theorem getLast?_dropWhile (p : Char → Bool) :
    ∀ l : List Char, l.dropWhile p ≠ [] → (l.dropWhile p).getLast? = l.getLast? := by
  intro l
  induction l with
  | nil => intro h; simp [List.dropWhile] at h
  | cons a rest ih =>
    intro h
    by_cases ha : p a = true
    · have hd : (a :: rest).dropWhile p = rest.dropWhile p := by
        simp [List.dropWhile_cons, ha]
      rw [hd] at h ⊢
      have hrest : rest ≠ [] := by
        intro hn
        rw [hn] at h
        simp [List.dropWhile] at h
      cases rest with
      | nil => exact absurd rfl hrest
      | cons b rs => rw [ih h, List.getLast?_cons_cons]
    · rw [List.dropWhile_cons, if_neg (by simp [ha])]

/-- A non-empty trimmed text starts with a non-whitespace character. -/
theorem startsNonWs_jsTrim (l : List Char) (h : jsTrim l ≠ []) :
    startsNonWs (jsTrim l) = true := by
  have hd2ne : (l.dropWhile isWs).reverse.dropWhile isWs ≠ [] := by
    intro hn
    exact h (by simp [jsTrim, hn])
  have hchain : (jsTrim l).head? = (l.dropWhile isWs).head? := by
    unfold jsTrim
    rw [List.head?_reverse, getLast?_dropWhile isWs (l.dropWhile isWs).reverse hd2ne,
      List.getLast?_reverse]
  cases hh : (l.dropWhile isWs).head? with
  | none =>
    have hnil : l.dropWhile isWs = [] := by
      cases hcase : l.dropWhile isWs with
      | nil => rfl
      | cons x xs => rw [hcase] at hh; simp at hh
    exact absurd (by simp [hnil, List.dropWhile]) hd2ne
  | some c =>
    have hc : isWs c = false := head?_dropWhile_false isWs l c hh
    unfold startsNonWs
    rw [hchain, hh]
    simp [hc]

/-- A non-empty trimmed text ends with a non-whitespace character. -/
theorem endsNonWs_jsTrim (l : List Char) (h : jsTrim l ≠ []) :
    endsNonWs (jsTrim l) = true := by
  have hd2ne : (l.dropWhile isWs).reverse.dropWhile isWs ≠ [] := by
    intro hn
    exact h (by simp [jsTrim, hn])
  have hchain : (jsTrim l).getLast? = ((l.dropWhile isWs).reverse.dropWhile isWs).head? := by
    unfold jsTrim
    rw [List.getLast?_reverse]
  cases hh : ((l.dropWhile isWs).reverse.dropWhile isWs).head? with
  | none =>
    cases hcase : (l.dropWhile isWs).reverse.dropWhile isWs with
    | nil => exact absurd hcase hd2ne
    | cons x xs => rw [hcase] at hh; simp at hh
  | some c =>
    have hc : isWs c = false :=
      head?_dropWhile_false isWs (l.dropWhile isWs).reverse c hh
    unfold endsNonWs
    rw [hchain, hh]
    simp [hc]

/-- Scanning a run of characters that all fail the predicate counts no run,
whatever the state. -/
theorem countRunsAux_all_false (p : Char → Bool) :
    ∀ (t : List Char), (∀ c ∈ t, p c = false) → ∀ b, countRunsAux p t b = 0 := by
  intro t
  induction t with
  | nil => intro _ b; simp [countRunsAux]
  | cons c rest ih =>
    intro h b
    have hc : p c = false := h c (by simp)
    simp [countRunsAux, hc, ih (fun x hx => h x (by simp [hx]))]

/-- Appending trailing whitespace does not change the token count. -/
theorem countTokens_append_ws :
    ∀ (l t : List Char), (∀ c ∈ t, isWs c = true) → ∀ b,
    countRunsAux (fun c => !isWs c) (l ++ t) b = countRunsAux (fun c => !isWs c) l b := by
  intro l t ht
  induction l with
  | nil =>
    intro b
    simpa [countRunsAux] using
      countRunsAux_all_false (fun c => !isWs c) t (by intro c hc; simp [ht c hc]) b
  | cons c rest ih =>
    intro b
    by_cases hc : isWs c = true
    · simp [countRunsAux, hc, ih]
    · simp [countRunsAux, hc, ih]

/-- Dropping leading whitespace does not change the token count. -/
theorem countTokens_dropWhile_ws :
    ∀ l : List Char,
    countRunsAux (fun c => !isWs c) (l.dropWhile isWs) false =
      countRunsAux (fun c => !isWs c) l false := by
  intro l
  induction l with
  | nil => simp [List.dropWhile]
  | cons c rest ih =>
    by_cases hc : isWs c = true
    · simp [List.dropWhile_cons, hc, countRunsAux, ih]
    · simp [List.dropWhile_cons, hc]

/-- Trimming does not change the token count. -/
theorem countTokens_jsTrim (l : List Char) : countTokens (jsTrim l) = countTokens l := by
  unfold countTokens
  have hsplit := List.takeWhile_append_dropWhile (p := isWs) (l := (l.dropWhile isWs).reverse)
  have hdec : l.dropWhile isWs = jsTrim l ++ ((l.dropWhile isWs).reverse.takeWhile isWs).reverse := by
    unfold jsTrim
    calc l.dropWhile isWs
        = (l.dropWhile isWs).reverse.reverse := (List.reverse_reverse _).symm
      _ = ((l.dropWhile isWs).reverse.takeWhile isWs ++
            (l.dropWhile isWs).reverse.dropWhile isWs).reverse := by rw [hsplit]
      _ = ((l.dropWhile isWs).reverse.dropWhile isWs).reverse ++
            ((l.dropWhile isWs).reverse.takeWhile isWs).reverse := List.reverse_append _ _
  have hws : ∀ c ∈ ((l.dropWhile isWs).reverse.takeWhile isWs).reverse, isWs c = true := by
    intro c hc
    exact List.mem_takeWhile_imp (by simpa using hc)
  calc countRunsAux (fun c => !isWs c) (jsTrim l) false
      = countRunsAux (fun c => !isWs c)
          (jsTrim l ++ ((l.dropWhile isWs).reverse.takeWhile isWs).reverse) false := by
        rw [countTokens_append_ws _ _ hws]
    _ = countRunsAux (fun c => !isWs c) (l.dropWhile isWs) false := by rw [← hdec]
    _ = countRunsAux (fun c => !isWs c) l false := countTokens_dropWhile_ws l

/-- A text whose trim is empty is all whitespace, so has no tokens. -/
theorem countTokens_of_jsTrim_nil (l : List Char) (h : jsTrim l = []) :
    countTokens l = 0 := by
  have hall : ∀ c ∈ l, isWs c = true := by
    have hd2 : (l.dropWhile isWs).reverse.dropWhile isWs = [] := by
      have := congrArg List.reverse h
      simpa [jsTrim] using this
    have hd1 : ∀ c ∈ (l.dropWhile isWs).reverse, isWs c = true :=
      List.dropWhile_eq_nil_iff.mp hd2
    intro c hc
    have hmem : c ∈ l.takeWhile isWs ++ l.dropWhile isWs := by
      rw [List.takeWhile_append_dropWhile]
      exact hc
    rcases List.mem_append.mp hmem with h1 | h1
    · exact List.mem_takeWhile_imp h1
    · exact hd1 c (by simpa using h1)
  exact countRunsAux_all_false _ l (by intro c hc; simp [hall c hc]) false

/-- `paraSplit` always produces at least one segment. -/
theorem paraSplit_ne_nil :
    ∀ (fuel : Nat) (l acc : List Char), paraSplit fuel l acc ≠ [] := by
  intro fuel
  induction fuel with
  | zero =>
    intro l acc
    cases l with
    | nil => simp [paraSplit]
    | cons c rest => simp [paraSplit]
  | succ f ih =>
    intro l acc
    cases l with
    | nil => simp [paraSplit]
    | cons c rest =>
      simp only [paraSplit]
      cases matchParaSep (c :: rest) with
      | some rem => simp
      | none => exact ih rest (c :: acc)

/-! ### Claim theorems for the word counter -/

/-- C7 — for every text the counter computes: word count = the number of
maximal non-whitespace runs of the text (0 for all-whitespace text);
character count = the length of the text, whitespace included; character
count excluding whitespace = total minus the number of whitespace
characters; paragraph count = 0 exactly for empty trimmed text (and at
least one block otherwise, blocks being separated by `\n\s*\n` matches);
in particular `"hello world"` yields words 2, chars 11, charsNoSpace 10,
paragraphs 1, and `""` yields words 0 and paragraphs 0. -/
theorem wordCounter_stats (s : List Char) :
    ((stats s).words = countTokens s ∧
     (stats s).chars = s.length ∧
     (stats s).charsNoSpace + (s.filter isWs).length = s.length ∧
     ((stats s).paragraphs = 0 ↔ jsTrim s = [])) ∧
    ((stats (("hello world").toList)).words = 2 ∧
     (stats (("hello world").toList)).chars = 11 ∧
     (stats (("hello world").toList)).charsNoSpace = 10 ∧
     (stats (("hello world").toList)).paragraphs = 1 ∧
     (stats (("").toList)).words = 0 ∧
     (stats (("").toList)).paragraphs = 0) := by
  refine ⟨⟨?_, ?_, ?_, ?_⟩, by decide, by decide, by decide, by decide, by decide, by decide⟩
  · show (if (jsTrim s).isEmpty then 0 else (jsSplitWs (jsTrim s)).length) = countTokens s
    by_cases h : jsTrim s = []
    · rw [if_pos (by simp [h]), countTokens_of_jsTrim_nil s h]
    · rw [if_neg (by simpa using h)]
      rw [show jsSplitWs (jsTrim s) = splitWsF false (jsTrim s) from rfl]
      rw [length_splitWsF]
      have := countTokens_eq_countWsRuns_succ (jsTrim s)
        (startsNonWs_jsTrim s h) (endsNonWs_jsTrim s h)
      rw [← countTokens_jsTrim s, this, countWsRuns, Nat.add_comm]
  · rfl
  · show (s.filter (fun c => !isWs c)).length + (s.filter isWs).length = s.length
    have h := List.length_eq_length_filter_add (l := s) isWs
    omega
  · show (if (jsTrim s).isEmpty then 0
          else (paraSplit ((jsTrim s).length + 1) (jsTrim s) []).length) = 0 ↔ jsTrim s = []
    by_cases h : jsTrim s = []
    · simp [h]
    · rw [if_neg (by simpa using h)]
      have := paraSplit_ne_nil ((jsTrim s).length + 1) (jsTrim s) []
      constructor
      · intro hlen
        exact absurd (List.length_eq_zero.mp hlen) this
      · intro hh
        exact absurd hh h

/-- C8 — the code, not the claim, is at fault.  The claim (and the spec's
design note) requires `readTime = ceil(words / 200)` uniformly, hence
`"0 min"` on empty input; but the source computes
`Math.ceil(text.trim().split(/\s+/).length / 200)` without the empty-text
guard used for `words`, and `"".split(/\s+/)` is `[""]` of length 1, so
empty input displays `"1 min"` while the counter's own word count is 0. -/
theorem readTime_empty_text_bug :
    (stats (("").toList)).readTimeMin = 1 ∧
    (stats (("").toList)).words = 0 ∧
    ((stats (("").toList)).words + 199) / 200 = 0 := by
  decide

/-! ## The URL cleaner (`UrlTrimmer.cleanUrls`)

Source, `src/myseotools.jsx` lines 178-198.  The source delegates URL
parsing and serialization to the platform's WHATWG `URL` class and its
`searchParams`; these builtins are modelled by a partial parser and
serializer that agree with the platform on the accepted domain:
`scheme://host[/path][?query][#fragment]` where the scheme and host are
already lower-case (the platform would lower-case them), the host is a
dotted domain name whose last label contains a letter (so the platform
performs no IPv4 canonicalization), the path has no `.` or `..` segments
(no dot-segment normalization), no component contains whitespace, a percent
sign, or any character that the platform would percent-encode, and the
query is made of `&`-separated `k=v` pairs whose keys and values use only
characters that the `application/x-www-form-urlencoded` serializer used by
`searchParams` passes through verbatim.  `parseURL` returns `none` on
anything else, and every URL theorem quantifies over accepted strings. -/

/-- JavaScript `String.split(sep)` for a one-character separator: split at
every occurrence, keeping empty segments (`"".split(sep)` is `[""]`). -/
def splitSepChar (sep : Char) : List Char → List (List Char)
  | [] => [[]]
  | c :: rest =>
    if c = sep then [] :: splitSepChar sep rest
    else
      match splitSepChar sep rest with
      | [] => [[c]]
      | s :: ss => (c :: s) :: ss

/-- Characters allowed after the first character of a scheme. -/
def schemeCharOk (c : Char) : Bool :=
  c.isLower || c.isDigit || c = '+' || c = '-' || c = '.'

/-- A valid, already-lower-case scheme: a lower-case letter followed by
lower-case letters, digits, `+`, `-` or `.`. -/
def schemeOk (l : List Char) : Bool :=
  match l with
  | [] => false
  | c :: rest => c.isLower && rest.all schemeCharOk

/-- Characters allowed in a host. -/
def hostCharOk (c : Char) : Bool :=
  c.isLower || c.isDigit || c = '.' || c = '-'

/-- A valid, already-lower-case host: non-empty, made of lower-case
letters, digits, dots and hyphens, with no empty dot-separated label and a
letter in the last label (ruling out the platform's IPv4 handling). -/
def hostOk (l : List Char) : Bool :=
  !l.isEmpty && l.all hostCharOk &&
    (splitSepChar '.' l).all (fun lbl => !lbl.isEmpty) &&
    (match (splitSepChar '.' l).getLast? with
     | some lbl => lbl.any (fun c => c.isLower)
     | none => false)

/-- Characters the platform serializes verbatim in a path. -/
def pathCharOk (c : Char) : Bool :=
  c.isAlphanum || c = '/' || c = '-' || c = '.' || c = '_' || c = '~' || c = ':' ||
    c = '@' || c = '!' || c = '$' || c = '&' || c = '+' || c = '=' || c = ',' ||
    c = ';' || c = '(' || c = ')' || c = '*'

/-- A valid path: allowed characters only and no `.`/`..` segment (the
platform would normalize dot segments away). -/
def pathOk (l : List Char) : Bool :=
  l.all pathCharOk &&
    (splitSepChar '/' l).all (fun seg => !(seg == ['.'] || seg == ['.', '.']))

/-- Characters the `application/x-www-form-urlencoded` serializer used by
`searchParams` passes through verbatim in keys and values. -/
def queryCharOk (c : Char) : Bool :=
  c.isAlphanum || c = '*' || c = '-' || c = '.' || c = '_' || c = '+'

/-- Characters the platform serializes verbatim in a fragment. -/
def fragCharOk (c : Char) : Bool :=
  c.isAlphanum || c = '/' || c = '-' || c = '.' || c = '_' || c = '~' || c = ':' ||
    c = '@' || c = '!' || c = '$' || c = '&' || c = '+' || c = '=' || c = ',' ||
    c = ';' || c = '(' || c = ')' || c = '*' || c = '?'

/-- The parsed form of a URL: scheme, host, absolute path, query as an
ordered list of key/value pairs (as exposed by `searchParams`), and an
optional fragment. -/
structure URLRec where
  scheme : List Char
  host : List Char
  path : List Char
  query : List (List Char × List Char)
  fragment : Option (List Char)
deriving DecidableEq

/-- The value of a `k=v` query segment: everything after the first `=`
(empty when there is no `=`). -/
def parsePairValue (seg : List Char) : List Char :=
  match seg.dropWhile (fun c => c ≠ '=') with
  | '=' :: tail => tail
  | _ => []

/-- Parse one `k=v` query segment the way `URLSearchParams` does: the key
is everything before the first `=`, the value everything after it. -/
def parsePair (seg : List Char) : Option (List Char × List Char) :=
  if (seg.takeWhile (fun c => c ≠ '=')).all queryCharOk &&
      (parsePairValue seg).all queryCharOk then
    some (seg.takeWhile (fun c => c ≠ '='), parsePairValue seg)
  else none

/-- Parse a list of query segments, failing if any one fails. -/
def parsePairs : List (List Char) → Option (List (List Char × List Char))
  | [] => some []
  | s :: ss =>
    match parsePair s, parsePairs ss with
    | some p, some ps => some (p :: ps)
    | _, _ => none

/-- Parse a raw query string: split on `&`, drop empty segments (as
`URLSearchParams` does), then parse each segment. -/
def parseQuery (q : List Char) : Option (List (List Char × List Char)) :=
  parsePairs ((splitSepChar '&' q).filter (fun s => !s.isEmpty))

/-- Characters ending the host component. -/
def hostDelim (c : Char) : Bool := c = '/' || c = '?' || c = '#'

/-- Characters ending the path component. -/
def pathDelim (c : Char) : Bool := c = '?' || c = '#'

/-- Final parsing stage: `rest` is what follows the query (either nothing
or `#fragment`). -/
def finishFrag (scheme host path : List Char)
    (pairs : List (List Char × List Char)) (rest : List Char) : Option URLRec :=
  match rest with
  | [] => some ⟨scheme, host, path, pairs, none⟩
  | '#' :: f =>
    if f.all fragCharOk then some ⟨scheme, host, path, pairs, some f⟩ else none
  | _ => none

/-- Parsing stage after the host: `rest4` starts at the path's terminator
(`?`, `#`, or the end). -/
def parsePathQF (scheme host path rest4 : List Char) : Option URLRec :=
  if pathOk path then
    match rest4 with
    | '?' :: qrest =>
      match parseQuery (qrest.takeWhile (fun c => c ≠ '#')) with
      | some pairs =>
        finishFrag scheme host path pairs (qrest.dropWhile (fun c => c ≠ '#'))
      | none => none
    | _ => finishFrag scheme host path [] rest4
  else none

/-- The path component read from `rest3` (what follows the host): an
absent path defaults to `/`, as the platform's serializer always emits
one. -/
def defaultPath (rest3 : List Char) : List Char :=
  if (rest3.takeWhile (fun c => !pathDelim c)).isEmpty then ['/']
  else rest3.takeWhile (fun c => !pathDelim c)

/-- Parsing stage after the scheme and host are validated: `rest3` is what
follows the host. -/
def parseAfterHost (scheme host rest3 : List Char) : Option URLRec :=
  parsePathQF scheme host (defaultPath rest3)
    (rest3.dropWhile (fun c => !pathDelim c))

/-- The model of `new URL(s)` on the accepted domain: a scheme before the
first `:`, then `//`, then a host up to `/`, `?` or `#`, then path, query
and fragment.  Any character outside the component's verbatim class makes
the parse fail rather than diverge from the platform. -/
def parseURL (l : List Char) : Option URLRec :=
  match l.dropWhile (fun c => c ≠ ':') with
  | ':' :: '/' :: '/' :: rest2 =>
    if schemeOk (l.takeWhile (fun c => c ≠ ':')) then
      if hostOk (rest2.takeWhile (fun c => !hostDelim c)) then
        parseAfterHost (l.takeWhile (fun c => c ≠ ':'))
          (rest2.takeWhile (fun c => !hostDelim c))
          (rest2.dropWhile (fun c => !hostDelim c))
      else none
    else none
  | _ => none

/-- Serialize a query pair list the way `URLSearchParams.toString` does on
the accepted domain: `k=v` pairs joined with `&`. -/
def joinQuery : List (List Char × List Char) → List Char
  | [] => []
  | [(k, v)] => k ++ '=' :: v
  | (k, v) :: rest => k ++ '=' :: v ++ '&' :: joinQuery rest

/-- The query part of a serialized URL: nothing when no pairs remain
(after `searchParams.delete` empties the query the platform drops the `?`),
else `?` followed by the joined pairs. -/
def queryPart (q : List (List Char × List Char)) : List Char :=
  if q.isEmpty then [] else '?' :: joinQuery q

/-- The fragment part of a serialized URL. -/
def fragPart (f : Option (List Char)) : List Char :=
  match f with
  | some f => '#' :: f
  | none => []

/-- The model of `url.toString()` on the accepted domain. -/
def serializeURL (u : URLRec) : List Char :=
  u.scheme ++ ':' :: '/' :: '/' ::
    (u.host ++ (u.path ++ (queryPart u.query ++ fragPart u.fragment)))

/-- `const paramsToRemove = ['utm_source', 'utm_medium', 'utm_campaign',
'utm_term', 'utm_content', 'fbclid', 'gclid', 'ref', '_ga'];` -/
def paramsToRemove : List (List Char) :=
  [("utm_source").toList, ("utm_medium").toList, ("utm_campaign").toList,
   ("utm_term").toList, ("utm_content").toList, ("fbclid").toList,
   ("gclid").toList, ("ref").toList, ("_ga").toList]

/-- Is a query pair kept by the cleaner?  `searchParams.delete(p)` removes
every pair whose key equals `p`. -/
def keepParam (p : List Char × List Char) : Bool :=
  !(paramsToRemove.contains p.1)

/-- The effect of the `paramsToRemove.forEach(...urlObj.searchParams.delete...)`
loop on a parsed URL. -/
def removeTracking (u : URLRec) : URLRec :=
  { u with query := u.query.filter keepParam }

/-- The literal marker appended to lines that fail to parse. -/
def invalidMark : List Char := (" (Invalid URL)").toList

/-- The per-line transform of `cleanUrls`: trim the line; an empty trimmed
line becomes an empty output line; a line parsing as a URL is re-serialized
with the tracking parameters removed; any other line becomes the trimmed
line followed by `" (Invalid URL)"`. -/
def cleanLine (line : List Char) : List Char :=
  if (jsTrim line).isEmpty then []
  else
    match parseURL (jsTrim line) with
    | some u => serializeURL (removeTracking u)
    | none => jsTrim line ++ invalidMark

/-- `UrlTrimmer.cleanUrls`: split the input on newlines, clean each line,
join with newlines. -/
def cleanUrls (input : List Char) : List Char :=
  List.intercalate [('\n')] ((splitSepChar '\n' input).map cleanLine)

/-! ### Supporting lemmas: spans, splits, character classes -/

theorem takeWhile_append_stop (p : Char → Bool) :
    ∀ (l1 : List Char) (c : Char) (l2 : List Char),
    (∀ x ∈ l1, p x = true) → p c = false →
    (l1 ++ c :: l2).takeWhile p = l1 ∧ (l1 ++ c :: l2).dropWhile p = c :: l2 := by
  intro l1
  induction l1 with
  | nil =>
    intro c l2 _ hc
    constructor
    · simp [List.takeWhile_cons, hc]
    · simp [List.dropWhile_cons, hc]
  | cons a l1x ih =>
    intro c l2 h1 hc
    have ha : p a = true := h1 a (by simp)
    have ihr := ih c l2 (fun x hx => h1 x (by simp [hx])) hc
    constructor
    · simp [List.takeWhile_cons, ha, ihr.1]
    · simp [List.dropWhile_cons, ha, ihr.2]

theorem takeWhile_all_eq (p : Char → Bool) :
    ∀ l : List Char, (∀ x ∈ l, p x = true) →
    l.takeWhile p = l ∧ l.dropWhile p = [] := by
  intro l
  induction l with
  | nil => intro _; simp
  | cons a t ih =>
    intro h
    have ha : p a = true := h a (by simp)
    have ihr := ih (fun x hx => h x (by simp [hx]))
    constructor
    · simp [List.takeWhile_cons, ha, ihr.1]
    · simp [List.dropWhile_cons, ha, ihr.2]

theorem head?_takeWhile (p : Char → Bool) (l : List Char) (c : Char)
    (h : (l.takeWhile p).head? = some c) : l.head? = some c ∧ p c = true := by
  cases l with
  | nil => simp [List.takeWhile] at h
  | cons a t =>
    rw [List.takeWhile_cons] at h
    by_cases ha : p a = true
    · rw [if_pos ha] at h
      simp at h
      subst h
      exact ⟨rfl, ha⟩
    · rw [if_neg ha] at h
      simp at h

/-- One-level unfolding of `splitSepChar`. -/
theorem splitSepChar_cons (sep c : Char) (rest : List Char) :
    splitSepChar sep (c :: rest) =
      if c = sep then [] :: splitSepChar sep rest
      else
        match splitSepChar sep rest with
        | [] => [[c]]
        | s :: ss => (c :: s) :: ss := rfl

theorem splitSepChar_ne_nil (sep : Char) : ∀ l : List Char, splitSepChar sep l ≠ [] := by
  intro l
  induction l with
  | nil => simp [splitSepChar]
  | cons c rest ih =>
    rw [splitSepChar_cons]
    by_cases hc : c = sep
    · simp [hc]
    · rw [if_neg hc]
      cases hsp : splitSepChar sep rest with
      | nil => simp
      | cons s ss => simp

theorem splitSepChar_nosep (sep : Char) :
    ∀ l : List Char, (∀ c ∈ l, c ≠ sep) → splitSepChar sep l = [l] := by
  intro l
  induction l with
  | nil => intro _; rfl
  | cons a rest ih =>
    intro h
    have ha : a ≠ sep := h a (by simp)
    rw [splitSepChar_cons, if_neg ha, ih (fun c hc => h c (by simp [hc]))]

theorem splitSepChar_append (sep : Char) :
    ∀ (l1 l2 : List Char), (∀ c ∈ l1, c ≠ sep) →
    splitSepChar sep (l1 ++ sep :: l2) = l1 :: splitSepChar sep l2 := by
  intro l1
  induction l1 with
  | nil =>
    intro l2 _
    rw [List.nil_append, splitSepChar_cons, if_pos rfl]
  | cons a l1x ih =>
    intro l2 h
    have ha : a ≠ sep := h a (by simp)
    rw [List.cons_append, splitSepChar_cons, if_neg ha,
      ih l2 (fun c hc => h c (by simp [hc]))]

/-- The characters that `isWs` accepts, enumerated. -/
theorem isWs_cases (c : Char) (h : isWs c = true) :
    c = ' ' ∨ c = '\t' ∨ c = '\n' ∨ c = '\r' ∨ c = '\x0B' ∨ c = '\x0C' ∨
      c = ' ' := by
  simpa [isWs, or_assoc] using h

theorem schemeCharOk_ne_colon (c : Char) (h : schemeCharOk c = true) : c ≠ ':' := by
  intro heq
  subst heq
  exact absurd h (by decide)

theorem isLower_schemeCharOk (c : Char) (h : c.isLower = true) : schemeCharOk c = true := by
  simp [schemeCharOk, h]

theorem schemeOk_chars (l : List Char) (h : schemeOk l = true) :
    ∀ c ∈ l, schemeCharOk c = true := by
  cases l with
  | nil => simp [schemeOk] at h
  | cons a rest =>
    intro c hc
    simp only [schemeOk, Bool.and_eq_true] at h
    rcases List.mem_cons.mp hc with rfl | hm
    · exact isLower_schemeCharOk c h.1
    · exact List.all_eq_true.mp h.2 c hm

theorem hostCharOk_not_delim (c : Char) (h : hostCharOk c = true) :
    (!hostDelim c) = true := by
  cases hd : hostDelim c
  · rfl
  · exfalso
    have : c = '/' ∨ c = '?' ∨ c = '#' := by simpa [hostDelim, or_assoc] using hd
    rcases this with rfl | rfl | rfl
    · exact absurd h (by decide)
    · exact absurd h (by decide)
    · exact absurd h (by decide)

theorem pathCharOk_not_delim (c : Char) (h : pathCharOk c = true) :
    (!pathDelim c) = true := by
  cases hd : pathDelim c
  · rfl
  · exfalso
    have : c = '?' ∨ c = '#' := by simpa [pathDelim, or_assoc] using hd
    rcases this with rfl | rfl
    · exact absurd h (by decide)
    · exact absurd h (by decide)

theorem queryCharOk_ne (c : Char) (h : queryCharOk c = true) :
    c ≠ '#' ∧ c ≠ '&' ∧ c ≠ '=' := by
  refine ⟨?_, ?_, ?_⟩
  all_goals intro heq
  all_goals subst heq
  all_goals exact absurd h (by decide)

theorem schemeCharOk_not_ws (c : Char) (h : schemeCharOk c = true) : isWs c = false := by
  cases hw : isWs c
  · rfl
  · exfalso
    rcases isWs_cases c hw with rfl | rfl | rfl | rfl | rfl | rfl | rfl
    all_goals exact absurd h (by decide)

theorem hostCharOk_not_ws (c : Char) (h : hostCharOk c = true) : isWs c = false := by
  cases hw : isWs c
  · rfl
  · exfalso
    rcases isWs_cases c hw with rfl | rfl | rfl | rfl | rfl | rfl | rfl
    all_goals exact absurd h (by decide)

theorem pathCharOk_not_ws (c : Char) (h : pathCharOk c = true) : isWs c = false := by
  cases hw : isWs c
  · rfl
  · exfalso
    rcases isWs_cases c hw with rfl | rfl | rfl | rfl | rfl | rfl | rfl
    all_goals exact absurd h (by decide)

theorem queryCharOk_not_ws (c : Char) (h : queryCharOk c = true) : isWs c = false := by
  cases hw : isWs c
  · rfl
  · exfalso
    rcases isWs_cases c hw with rfl | rfl | rfl | rfl | rfl | rfl | rfl
    all_goals exact absurd h (by decide)

theorem fragCharOk_not_ws (c : Char) (h : fragCharOk c = true) : isWs c = false := by
  cases hw : isWs c
  · rfl
  · exfalso
    rcases isWs_cases c hw with rfl | rfl | rfl | rfl | rfl | rfl | rfl
    all_goals exact absurd h (by decide)

/-! ### Supporting lemmas: the query round trip -/

theorem parsePair_mk (k v : List Char)
    (hk : k.all queryCharOk = true) (hv : v.all queryCharOk = true) :
    parsePair (k ++ '=' :: v) = some (k, v) := by
  have hkne : ∀ x ∈ k, (decide (x ≠ '=')) = true := by
    intro x hx
    simpa using (queryCharOk_ne x (List.all_eq_true.mp hk x hx)).2.2
  have hspan := takeWhile_append_stop (fun c => decide (c ≠ '=')) k '=' v hkne (by decide)
  have hval : parsePairValue (k ++ '=' :: v) = v := by
    unfold parsePairValue
    rw [hspan.2]
    rfl
  unfold parsePair
  rw [hspan.1, hval, hk, hv]
  rfl

theorem parsePair_wf (seg : List Char) (p : List Char × List Char)
    (h : parsePair seg = some p) :
    p.1.all queryCharOk = true ∧ p.2.all queryCharOk = true := by
  unfold parsePair at h
  by_cases hcond : ((seg.takeWhile (fun c => c ≠ '=')).all queryCharOk &&
      (parsePairValue seg).all queryCharOk) = true
  · rw [if_pos hcond] at h
    have hp : (seg.takeWhile (fun c => c ≠ '='), parsePairValue seg) = p := by
      simpa using h
    rw [← hp]
    simpa [Bool.and_eq_true] using hcond
  · rw [if_neg hcond] at h
    simp at h

theorem parsePairs_wf :
    ∀ (segs : List (List Char)) (ps : List (List Char × List Char)),
    parsePairs segs = some ps →
    ∀ p ∈ ps, p.1.all queryCharOk = true ∧ p.2.all queryCharOk = true := by
  intro segs
  induction segs with
  | nil =>
    intro ps h p hp
    have : ([] : List (List Char × List Char)) = ps := by simpa [parsePairs] using h
    subst this
    simp at hp
  | cons s ss ih =>
    intro ps h p hp
    unfold parsePairs at h
    cases hp1 : parsePair s with
    | none => rw [hp1] at h; simp at h
    | some q =>
      cases hps : parsePairs ss with
      | none => rw [hp1, hps] at h; simp at h
      | some qs =>
        rw [hp1, hps] at h
        have : q :: qs = ps := by simpa using h
        subst this
        rcases List.mem_cons.mp hp with rfl | hm
        · exact parsePair_wf s p hp1
        · exact ih qs hps p hm

theorem parsePairs_map (ps : List (List Char × List Char))
    (h : ∀ p ∈ ps, p.1.all queryCharOk = true ∧ p.2.all queryCharOk = true) :
    parsePairs (ps.map (fun p => p.1 ++ '=' :: p.2)) = some ps := by
  induction ps with
  | nil => rfl
  | cons p rest ih =>
    obtain ⟨k, v⟩ := p
    have hp := h (k, v) (by simp)
    rw [List.map_cons]
    unfold parsePairs
    rw [parsePair_mk k v hp.1 hp.2, ih (fun q hq => h q (by simp [hq]))]

/-- One-level unfolding of `joinQuery` on two or more pairs. -/
theorem joinQuery_cons₂ (k v : List Char) (q : List Char × List Char)
    (qs : List (List Char × List Char)) :
    joinQuery ((k, v) :: q :: qs) = k ++ '=' :: v ++ '&' :: joinQuery (q :: qs) := rfl

theorem joinQuery_chars (ps : List (List Char × List Char))
    (h : ∀ p ∈ ps, p.1.all queryCharOk = true ∧ p.2.all queryCharOk = true) :
    ∀ c ∈ joinQuery ps, queryCharOk c = true ∨ c = '=' ∨ c = '&' := by
  induction ps with
  | nil => intro c hc; simp [joinQuery] at hc
  | cons p rest ih =>
    obtain ⟨k, v⟩ := p
    intro c hc
    have hk := (h (k, v) (by simp)).1
    have hv := (h (k, v) (by simp)).2
    cases rest with
    | nil =>
      have hc' : c ∈ k ++ '=' :: v := hc
      simp only [List.mem_append, List.mem_cons] at hc'
      rcases hc' with h1 | h1 | h1
      · exact Or.inl (List.all_eq_true.mp hk c h1)
      · exact Or.inr (Or.inl h1)
      · exact Or.inl (List.all_eq_true.mp hv c h1)
    | cons q qs =>
      rw [joinQuery_cons₂] at hc
      rcases List.mem_append.mp hc with h1 | h1
      · rcases List.mem_append.mp h1 with h2 | h2
        · exact Or.inl (List.all_eq_true.mp hk c h2)
        · rcases List.mem_cons.mp h2 with rfl | h3
          · exact Or.inr (Or.inl rfl)
          · exact Or.inl (List.all_eq_true.mp hv c h3)
      · rcases List.mem_cons.mp h1 with rfl | h2
        · exact Or.inr (Or.inr rfl)
        · exact ih (fun p hp => h p (by simp [hp])) c h2

theorem splitSepChar_joinQuery :
    ∀ ps : List (List Char × List Char), ps ≠ [] →
    (∀ p ∈ ps, p.1.all queryCharOk = true ∧ p.2.all queryCharOk = true) →
    splitSepChar '&' (joinQuery ps) = ps.map (fun p => p.1 ++ '=' :: p.2) := by
  intro ps
  induction ps with
  | nil => intro h; exact absurd rfl h
  | cons p rest ih =>
    intro _ hwf
    obtain ⟨k, v⟩ := p
    have hseg : ∀ c ∈ k ++ '=' :: v, c ≠ '&' := by
      intro c hc
      simp only [List.mem_append, List.mem_cons] at hc
      rcases hc with h1 | h1 | h1
      · exact (queryCharOk_ne c (List.all_eq_true.mp (hwf (k, v) (by simp)).1 c h1)).2.1
      · subst h1; decide
      · exact (queryCharOk_ne c (List.all_eq_true.mp (hwf (k, v) (by simp)).2 c h1)).2.1
    cases rest with
    | nil =>
      rw [show joinQuery [(k, v)] = k ++ '=' :: v from rfl,
        splitSepChar_nosep '&' _ hseg]
      simp
    | cons q qs =>
      rw [joinQuery_cons₂]
      have hassoc : k ++ '=' :: v ++ '&' :: joinQuery (q :: qs) =
          (k ++ '=' :: v) ++ '&' :: joinQuery (q :: qs) := by simp
      rw [hassoc, splitSepChar_append '&' _ _ hseg,
        ih (by simp) (fun p hp => hwf p (by simp [hp]))]
      simp

theorem filter_map_nonempty (ps : List (List Char × List Char)) :
    (ps.map (fun p => p.1 ++ '=' :: p.2)).filter (fun s => !s.isEmpty) =
      ps.map (fun p => p.1 ++ '=' :: p.2) := by
  rw [List.filter_eq_self]
  intro s hs
  rcases List.mem_map.mp hs with ⟨p, _, rfl⟩
  simp

theorem parseQuery_joinQuery (ps : List (List Char × List Char)) (hne : ps ≠ [])
    (hwf : ∀ p ∈ ps, p.1.all queryCharOk = true ∧ p.2.all queryCharOk = true) :
    parseQuery (joinQuery ps) = some ps := by
  unfold parseQuery
  rw [splitSepChar_joinQuery ps hne hwf, filter_map_nonempty, parsePairs_map ps hwf]

theorem parseQuery_wf (q : List Char) (ps : List (List Char × List Char))
    (h : parseQuery q = some ps) :
    ∀ p ∈ ps, p.1.all queryCharOk = true ∧ p.2.all queryCharOk = true := by
  unfold parseQuery at h
  exact parsePairs_wf _ ps h

/-! ### Supporting lemmas: the fragment stage -/

theorem finishFrag_frag (s h p : List Char) (q : List (List Char × List Char))
    (f : List Char) (hf : f.all fragCharOk = true) :
    finishFrag s h p q ('#' :: f) = some ⟨s, h, p, q, some f⟩ := by
  simp [finishFrag, hf]

theorem finishFrag_fields (s h p : List Char) (q : List (List Char × List Char))
    (rest : List Char) (u : URLRec) (hf : finishFrag s h p q rest = some u) :
    u.scheme = s ∧ u.host = h ∧ u.path = p ∧ u.query = q ∧
      (∀ f, u.fragment = some f → f.all fragCharOk = true) := by
  unfold finishFrag at hf
  split at hf
  · have : URLRec.mk s h p q none = u := by simpa using hf
    subst this
    simp
  · rename_i f
    split at hf
    · rename_i hfragOk
      have : URLRec.mk s h p q (some f) = u := by simpa using hf
      subst this
      refine ⟨rfl, rfl, rfl, rfl, ?_⟩
      intro f' hf'
      have : f = f' := by simpa using hf'
      subst this
      exact hfragOk
    · simp at hf
  · simp at hf

/-! ### Supporting lemmas: parser stages and well-formedness -/

theorem hostOk_chars (l : List Char) (h : hostOk l = true) :
    ∀ c ∈ l, hostCharOk c = true := by
  intro c hc
  simp only [hostOk, Bool.and_eq_true] at h
  exact List.all_eq_true.mp h.1.1.2 c hc

theorem pathOk_chars (l : List Char) (h : pathOk l = true) :
    ∀ c ∈ l, pathCharOk c = true := by
  intro c hc
  simp only [pathOk, Bool.and_eq_true] at h
  exact List.all_eq_true.mp h.1 c hc

theorem parseAfterHost_eq (scheme host rest3 : List Char) :
    parseAfterHost scheme host rest3 =
      parsePathQF scheme host (defaultPath rest3)
        (rest3.dropWhile (fun c => !pathDelim c)) := rfl

theorem finishFrag_nil (s h p : List Char) (q : List (List Char × List Char)) :
    finishFrag s h p q [] = some ⟨s, h, p, q, none⟩ := rfl

theorem parsePathQF_query (scheme host path qrest : List Char)
    (hp : pathOk path = true) :
    parsePathQF scheme host path ('?' :: qrest) =
      match parseQuery (qrest.takeWhile (fun c => c ≠ '#')) with
      | some pairs =>
        finishFrag scheme host path pairs (qrest.dropWhile (fun c => c ≠ '#'))
      | none => none := by
  unfold parsePathQF
  rw [if_pos hp]
  rfl

theorem parsePathQF_nil (scheme host path : List Char) (hp : pathOk path = true) :
    parsePathQF scheme host path [] = finishFrag scheme host path [] [] := by
  unfold parsePathQF
  rw [if_pos hp]

theorem parsePathQF_hash (scheme host path f : List Char) (hp : pathOk path = true) :
    parsePathQF scheme host path ('#' :: f) =
      finishFrag scheme host path [] ('#' :: f) := by
  unfold parsePathQF
  rw [if_pos hp]
  rfl

theorem defaultPath_of_take (rest3 path : List Char)
    (htake : rest3.takeWhile (fun c => !pathDelim c) = path) (hne : path ≠ []) :
    defaultPath rest3 = path := by
  unfold defaultPath
  rw [htake, if_neg (by simpa [List.isEmpty_iff] using hne)]

theorem parseURL_eq_of_drop (l scheme rest2 : List Char)
    (htake : l.takeWhile (fun c => c ≠ ':') = scheme)
    (hdrop : l.dropWhile (fun c => c ≠ ':') = ':' :: '/' :: '/' :: rest2) :
    parseURL l =
      if schemeOk scheme then
        if hostOk (rest2.takeWhile (fun c => !hostDelim c)) then
          parseAfterHost scheme (rest2.takeWhile (fun c => !hostDelim c))
            (rest2.dropWhile (fun c => !hostDelim c))
        else none
      else none := by
  unfold parseURL
  rw [htake, hdrop]
  rfl

/-- The conditions the parser establishes about every URL it accepts; these
are exactly what the serializer needs for the round trip. -/
def WFUrl (u : URLRec) : Prop :=
  schemeOk u.scheme = true ∧
  hostOk u.host = true ∧
  u.path.head? = some '/' ∧
  pathOk u.path = true ∧
  (∀ p ∈ u.query, p.1.all queryCharOk = true ∧ p.2.all queryCharOk = true) ∧
  (∀ f, u.fragment = some f → f.all fragCharOk = true)

/-- The path the parser reads always starts with `/`: either it is the
default `/`, or its head is the host delimiter that ended the host span,
which the path span check narrows down to `/`. -/
theorem defaultPath_head (rest2 : List Char) :
    (defaultPath (rest2.dropWhile (fun c => !hostDelim c))).head? = some '/' := by
  unfold defaultPath
  by_cases he :
      (((rest2.dropWhile (fun c => !hostDelim c)).takeWhile
        (fun c => !pathDelim c)).isEmpty) = true
  · rw [if_pos he]
    rfl
  · rw [if_neg he]
    cases hh : ((rest2.dropWhile (fun c => !hostDelim c)).takeWhile
        (fun c => !pathDelim c)).head? with
    | none =>
      exfalso
      cases hcase : (rest2.dropWhile (fun c => !hostDelim c)).takeWhile
          (fun c => !pathDelim c) with
      | nil => rw [hcase] at he; simp at he
      | cons a t => rw [hcase] at hh; simp at hh
    | some c =>
      have hsp := head?_takeWhile (fun c => !pathDelim c) _ c hh
      have hhd : (!hostDelim c) = false :=
        head?_dropWhile_false (fun c => !hostDelim c) rest2 c hsp.1
      have h1 : hostDelim c = true := by simpa using hhd
      have h2 : pathDelim c = false := by simpa using hsp.2
      have hc : c = '/' := by
        rcases (by simpa [hostDelim, or_assoc] using h1 :
            c = '/' ∨ c = '?' ∨ c = '#') with rfl | rfl | rfl
        · rfl
        · simp [pathDelim] at h2
        · simp [pathDelim] at h2
      subst hc
      rfl

/-- Everything the parser accepts is well-formed. -/
theorem parseURL_wf (l : List Char) (u : URLRec) (h : parseURL l = some u) :
    WFUrl u := by
  unfold parseURL at h
  split at h
  · rename_i rest2 heq
    split at h
    · rename_i hscheme
      split at h
      · rename_i hhost
        rw [parseAfterHost_eq] at h
        unfold parsePathQF at h
        split at h
        · rename_i hpath
          split at h
          · rename_i qrest heq4
            split at h
            · rename_i pairs heqQ
              have hf := finishFrag_fields _ _ _ _ _ u h
              refine ⟨?_, ?_, ?_, ?_, ?_, hf.2.2.2.2⟩
              · rw [hf.1]; exact hscheme
              · rw [hf.2.1]; exact hhost
              · rw [hf.2.2.1]; exact defaultPath_head rest2
              · rw [hf.2.2.1]; exact hpath
              · rw [hf.2.2.2.1]; exact parseQuery_wf _ pairs heqQ
            · simp at h
          · have hf := finishFrag_fields _ _ _ _ _ u h
            refine ⟨?_, ?_, ?_, ?_, ?_, hf.2.2.2.2⟩
            · rw [hf.1]; exact hscheme
            · rw [hf.2.1]; exact hhost
            · rw [hf.2.2.1]; exact defaultPath_head rest2
            · rw [hf.2.2.1]; exact hpath
            · rw [hf.2.2.2.1]; intro p hp; simp at hp
        · simp at h
      · simp at h
    · simp at h
  · simp at h

theorem span_cons_append (p : Char → Bool) (a : Char) (l1 : List Char) (c : Char)
    (l2 : List Char) (ha : p a = true) (h1 : ∀ x ∈ l1, p x = true)
    (hc : p c = false) :
    (a :: (l1 ++ c :: l2)).takeWhile p = a :: l1 ∧
    (a :: (l1 ++ c :: l2)).dropWhile p = c :: l2 := by
  have hs := takeWhile_append_stop p l1 c l2 h1 hc
  constructor
  · rw [List.takeWhile_cons, if_pos ha, hs.1]
  · rw [List.dropWhile_cons, if_pos ha, hs.2]

/-- The serializer/parser round trip: parsing a serialized well-formed URL
recovers it exactly. -/
theorem parseURL_serializeURL (u : URLRec) (hwf : WFUrl u) :
    parseURL (serializeURL u) = some u := by
  obtain ⟨scheme, host, path, query, fragment⟩ := u
  obtain ⟨hscheme, hhost, hpathHead, hpathOk, hqwf, hfwf⟩ := hwf
  cases path with
  | nil => simp at hpathHead
  | cons p0 ptail =>
    have hp0 : p0 = '/' := by simpa using hpathHead
    subst hp0
    have hser : serializeURL ⟨scheme, host, '/' :: ptail, query, fragment⟩ =
        scheme ++ ':' :: '/' :: '/' ::
          (host ++ ('/' :: (ptail ++ (queryPart query ++ fragPart fragment)))) := rfl
    rw [hser]
    have hschemeChars : ∀ x ∈ scheme, (fun c => decide (c ≠ ':')) x = true := by
      intro x hx
      simpa using schemeCharOk_ne_colon x (schemeOk_chars scheme hscheme x hx)
    have hspan1 := takeWhile_append_stop (fun c => decide (c ≠ ':')) scheme ':'
      ('/' :: '/' :: (host ++ ('/' :: (ptail ++ (queryPart query ++ fragPart fragment)))))
      hschemeChars (by decide)
    rw [parseURL_eq_of_drop _ scheme
      (host ++ ('/' :: (ptail ++ (queryPart query ++ fragPart fragment))))
      hspan1.1 hspan1.2]
    rw [if_pos hscheme]
    have hhostChars : ∀ x ∈ host, (fun c => !hostDelim c) x = true := by
      intro x hx
      simpa using hostCharOk_not_delim x (hostOk_chars host hhost x hx)
    have hspan2 := takeWhile_append_stop (fun c => !hostDelim c) host '/'
      (ptail ++ (queryPart query ++ fragPart fragment)) hhostChars (by decide)
    rw [hspan2.1, hspan2.2, if_pos hhost, parseAfterHost_eq]
    have hpathChars : ∀ x ∈ '/' :: ptail, (fun c => !pathDelim c) x = true := by
      intro x hx
      simpa using pathCharOk_not_delim x (pathOk_chars _ hpathOk x hx)
    have hptailChars : ∀ x ∈ ptail, (fun c => !pathDelim c) x = true :=
      fun x hx => hpathChars x (by simp [hx])
    cases query with
    | nil =>
      have hqp : queryPart ([] : List (List Char × List Char)) = [] := rfl
      cases fragment with
      | none =>
        rw [hqp, show fragPart none = [] from rfl, List.nil_append, List.append_nil]
        have hspan3 := takeWhile_all_eq (fun c => !pathDelim c) ('/' :: ptail) hpathChars
        rw [defaultPath_of_take _ _ hspan3.1 (by simp), hspan3.2,
          parsePathQF_nil _ _ _ hpathOk, finishFrag_nil]
      | some f =>
        rw [hqp, show fragPart (some f) = '#' :: f from rfl, List.nil_append]
        have hspan3 := span_cons_append (fun c => !pathDelim c) '/' ptail '#' f
          (by decide) hptailChars (by decide)
        rw [defaultPath_of_take _ _ hspan3.1 (by simp), hspan3.2,
          parsePathQF_hash _ _ _ _ hpathOk]
        exact finishFrag_frag scheme host ('/' :: ptail) [] f (hfwf f rfl)
    | cons q0 qtail =>
      have hqp : queryPart (q0 :: qtail) = '?' :: joinQuery (q0 :: qtail) := rfl
      have hjoinChars : ∀ x ∈ joinQuery (q0 :: qtail),
          (fun c => decide (c ≠ '#')) x = true := by
        intro x hx
        rcases joinQuery_chars (q0 :: qtail) hqwf x hx with h1 | h1 | h1
        · simpa using (queryCharOk_ne x h1).1
        · subst h1; decide
        · subst h1; decide
      cases fragment with
      | none =>
        rw [hqp, show fragPart none = [] from rfl, List.append_nil]
        have hspan3 := span_cons_append (fun c => !pathDelim c) '/' ptail '?'
          (joinQuery (q0 :: qtail)) (by decide) hptailChars (by decide)
        rw [defaultPath_of_take _ _ hspan3.1 (by simp), hspan3.2,
          parsePathQF_query _ _ _ _ hpathOk]
        have hspan4 := takeWhile_all_eq (fun c => decide (c ≠ '#'))
          (joinQuery (q0 :: qtail)) hjoinChars
        rw [hspan4.1, hspan4.2, parseQuery_joinQuery (q0 :: qtail) (by simp) hqwf]
        exact finishFrag_nil scheme host ('/' :: ptail) (q0 :: qtail)
      | some f =>
        rw [hqp, show fragPart (some f) = '#' :: f from rfl, List.cons_append]
        have hspan3 := span_cons_append (fun c => !pathDelim c) '/' ptail '?'
          (joinQuery (q0 :: qtail) ++ '#' :: f) (by decide) hptailChars (by decide)
        rw [defaultPath_of_take _ _ hspan3.1 (by simp), hspan3.2,
          parsePathQF_query _ _ _ _ hpathOk]
        have hspan4 := takeWhile_append_stop (fun c => decide (c ≠ '#'))
          (joinQuery (q0 :: qtail)) '#' f hjoinChars (by decide)
        rw [hspan4.1, hspan4.2, parseQuery_joinQuery (q0 :: qtail) (by simp) hqwf]
        exact finishFrag_frag scheme host ('/' :: ptail) (q0 :: qtail) f (hfwf f rfl)

/-! ### Supporting lemmas: the cleaner itself -/

/-- A serialized URL contains no whitespace, so trimming leaves it alone. -/
theorem serializeURL_no_ws (u : URLRec) (hwf : WFUrl u) :
    ∀ c ∈ serializeURL u, isWs c = false := by
  obtain ⟨scheme, host, path, query, fragment⟩ := u
  obtain ⟨hscheme, hhost, _, hpathOk, hqwf, hfwf⟩ := hwf
  intro c hc
  rw [show serializeURL ⟨scheme, host, path, query, fragment⟩ =
      scheme ++ ':' :: '/' :: '/' ::
        (host ++ (path ++ (queryPart query ++ fragPart fragment))) from rfl] at hc
  rcases List.mem_append.mp hc with h1 | h1
  · exact schemeCharOk_not_ws c (schemeOk_chars scheme hscheme c h1)
  · rcases List.mem_cons.mp h1 with rfl | h2
    · decide
    · rcases List.mem_cons.mp h2 with rfl | h3
      · decide
      · rcases List.mem_cons.mp h3 with rfl | h4
        · decide
        · rcases List.mem_append.mp h4 with h5 | h5
          · exact hostCharOk_not_ws c (hostOk_chars host hhost c h5)
          · rcases List.mem_append.mp h5 with h6 | h6
            · exact pathCharOk_not_ws c (pathOk_chars path hpathOk c h6)
            · rcases List.mem_append.mp h6 with h7 | h7
              · cases query with
                | nil => simp [queryPart] at h7
                | cons q0 qtail =>
                  rw [show queryPart (q0 :: qtail) =
                      '?' :: joinQuery (q0 :: qtail) from rfl] at h7
                  rcases List.mem_cons.mp h7 with rfl | h8
                  · decide
                  · rcases joinQuery_chars _ hqwf c h8 with hx | hx | hx
                    · exact queryCharOk_not_ws c hx
                    · subst hx; decide
                    · subst hx; decide
              · cases fragment with
                | none => simp [fragPart] at h7
                | some f =>
                  rw [show fragPart (some f) = '#' :: f from rfl] at h7
                  rcases List.mem_cons.mp h7 with rfl | h8
                  · decide
                  · exact fragCharOk_not_ws c
                      (List.all_eq_true.mp (hfwf f rfl) c h8)

theorem dropWhile_head_false (p : Char → Bool) (l : List Char)
    (h : ∀ c ∈ l, p c = false) : l.dropWhile p = l := by
  cases l with
  | nil => rfl
  | cons a t => rw [List.dropWhile_cons, if_neg (by simp [h a (by simp)])]

theorem jsTrim_no_ws (l : List Char) (h : ∀ c ∈ l, isWs c = false) :
    jsTrim l = l := by
  unfold jsTrim
  rw [dropWhile_head_false isWs l h,
    dropWhile_head_false isWs l.reverse (fun c hc => h c (by simpa using hc))]
  exact List.reverse_reverse l

theorem serializeURL_ne_nil (u : URLRec) : serializeURL u ≠ [] := by
  simp [serializeURL]

theorem removeTracking_wf (u : URLRec) (h : WFUrl u) : WFUrl (removeTracking u) := by
  obtain ⟨h1, h2, h3, h4, h5, h6⟩ := h
  exact ⟨h1, h2, h3, h4, fun p hp => h5 p (List.mem_filter.mp hp).1, h6⟩

theorem removeTracking_idem (u : URLRec) :
    removeTracking (removeTracking u) = removeTracking u := by
  have hf : (u.query.filter keepParam).filter keepParam = u.query.filter keepParam :=
    List.filter_eq_self.mpr (fun p hp => (List.mem_filter.mp hp).2)
  unfold removeTracking
  rw [show ({ u with query := u.query.filter keepParam } : URLRec).query =
    u.query.filter keepParam from rfl, hf]

theorem parseURL_nil : parseURL [] = none := rfl

theorem cleanLine_of_parse (line : List Char) (u : URLRec)
    (h : parseURL (jsTrim line) = some u) :
    cleanLine line = serializeURL (removeTracking u) := by
  have hne : jsTrim line ≠ [] := by
    intro hn
    rw [hn, parseURL_nil] at h
    simp at h
  unfold cleanLine
  rw [if_neg (by simpa [List.isEmpty_iff] using hne), h]

theorem cleanLine_invalid (line : List Char)
    (hne : jsTrim line ≠ []) (h : parseURL (jsTrim line) = none) :
    cleanLine line = jsTrim line ++ invalidMark := by
  unfold cleanLine
  rw [if_neg (by simpa [List.isEmpty_iff] using hne), h]

theorem cleanLine_blank (line : List Char) (h : jsTrim line = []) :
    cleanLine line = [] := by
  unfold cleanLine
  rw [if_pos (by simpa [List.isEmpty_iff] using h)]

/-! ### Claim theorems for the URL cleaner -/

/-- C5 — for every input line that parses as a URL (lines are trimmed
before parsing, like the source does), the cleaner serializes the parsed
URL with exactly the tracked query parameters removed: the kept parameters
are a sublist of the original query (original relative order), none of
them is tracked, and every untracked original parameter is kept; in
particular `"https://a.com/x?utm_source=y&keep=1"` cleans to
`"https://a.com/x?keep=1"`. -/
theorem url_cleaner_removes_tracking (line : List Char) (u : URLRec)
    (h : parseURL (jsTrim line) = some u) :
    cleanLine line = serializeURL (removeTracking u) ∧
    (removeTracking u).query.Sublist u.query ∧
    (∀ p ∈ (removeTracking u).query, paramsToRemove.contains p.1 = false) ∧
    (∀ p ∈ u.query, paramsToRemove.contains p.1 = false →
      p ∈ (removeTracking u).query) ∧
    cleanLine (("https://a.com/x?utm_source=y&keep=1").toList) =
      ("https://a.com/x?keep=1").toList := by
  refine ⟨cleanLine_of_parse line u h, ?_, ?_, ?_, by decide⟩
  · exact List.filter_sublist u.query
  · intro p hp
    have hk : keepParam p = true := (List.mem_filter.mp hp).2
    simpa [keepParam] using hk
  · intro p hp hnc
    exact List.mem_filter.mpr ⟨hp, by simpa [keepParam] using hnc⟩

/-- The parse of the C5 witness line. -/
def urlW5 : URLRec :=
  ⟨("https").toList, ("c.net").toList, ("/a").toList,
    [(("utm_medium").toList, ("m").toList), (("b").toList, ("2").toList)], none⟩

/-- Witness for C5 at `"https://c.net/a?utm_medium=m&b=2"`. -/
theorem url_cleaner_removes_tracking_witness :
    cleanLine (("https://c.net/a?utm_medium=m&b=2").toList) =
      ("https://c.net/a?b=2").toList ∧
    (removeTracking urlW5).query.Sublist urlW5.query := by
  have h := url_cleaner_removes_tracking
    (("https://c.net/a?utm_medium=m&b=2").toList) urlW5 (by decide)
  exact ⟨h.1.trans (by decide), h.2.1⟩

/-- C6, counterexample — the claim says a failing line is passed through
*unchanged* with the marker appended; but the source appends the marker to
the *trimmed* line, so a failing line with surrounding whitespace is not
passed through unchanged. -/
theorem invalid_line_not_unchanged :
    cleanLine (("  not a url").toList) = ("not a url (Invalid URL)").toList ∧
    cleanLine (("  not a url").toList) ≠ ("  not a url").toList ++ invalidMark := by
  exact ⟨by decide, by decide⟩

/-- C6, amended — for every non-blank input line that fails URL parsing,
the cleaner outputs the *trimmed* line with the literal marker
`" (Invalid URL)"` appended; blank lines produce empty output lines. -/
theorem invalid_line_marked (line : List Char) :
    (jsTrim line = [] → cleanLine line = []) ∧
    (jsTrim line ≠ [] → parseURL (jsTrim line) = none →
      cleanLine line = jsTrim line ++ invalidMark) := by
  exact ⟨cleanLine_blank line, cleanLine_invalid line⟩

/-- Witness for the amended C6: a blank line and a non-parsing line. -/
theorem invalid_line_marked_witness :
    cleanLine (("   ").toList) = [] ∧
    cleanLine ((" x y ").toList) = ("x y").toList ++ invalidMark := by
  constructor
  · exact (invalid_line_marked (("   ").toList)).1 (by decide)
  · have h := (invalid_line_marked ((" x y ").toList)).2 (by decide) (by decide)
    rw [h]
    decide

/-- C9 — round-trip: for every line that parses as a URL and carries none
of the tracked parameters, the cleaner returns the URL unchanged modulo
canonical serialization (its output is the canonical serialization of the
parsed URL); and on every valid-URL line the cleaner is idempotent:
applying it to its own output is the identity. -/
theorem url_cleaner_roundtrip (line : List Char) (u : URLRec)
    (h : parseURL (jsTrim line) = some u) :
    ((∀ p ∈ u.query, keepParam p = true) → cleanLine line = serializeURL u) ∧
    cleanLine (cleanLine line) = cleanLine line := by
  have hwf := parseURL_wf _ u h
  have hwfr := removeTracking_wf u hwf
  have hclean := cleanLine_of_parse line u h
  constructor
  · intro hall
    rw [hclean]
    have hrm : removeTracking u = u := by
      unfold removeTracking
      rw [List.filter_eq_self.mpr hall]
    rw [hrm]
  · rw [hclean]
    have htrim : jsTrim (serializeURL (removeTracking u)) =
        serializeURL (removeTracking u) :=
      jsTrim_no_ws _ (serializeURL_no_ws _ hwfr)
    have hparse : parseURL (jsTrim (serializeURL (removeTracking u))) =
        some (removeTracking u) := by
      rw [htrim]
      exact parseURL_serializeURL _ hwfr
    rw [cleanLine_of_parse _ _ hparse, removeTracking_idem]

/-- The parse of the C9 witness line. -/
def urlW9 : URLRec :=
  ⟨("https").toList, ("b.org").toList, ("/p").toList,
    [(("x").toList, ("2").toList)], none⟩

/-- Witness for C9 at `"https://b.org/p?x=2"`: an already-clean URL comes
back unchanged and cleaning is idempotent on it. -/
theorem url_cleaner_roundtrip_witness :
    cleanLine (("https://b.org/p?x=2").toList) = serializeURL urlW9 ∧
    cleanLine (cleanLine (("https://b.org/p?x=2").toList)) =
      cleanLine (("https://b.org/p?x=2").toList) := by
  have h := url_cleaner_roundtrip (("https://b.org/p?x=2").toList) urlW9 (by decide)
  exact ⟨h.1 (by decide), h.2⟩

end SeoStudio
